import Mathlib

/-!
Verification of `internal/cmd/genmethods/genmethods.go`, the code generator
of the millergarym/slack repository.  The Go source is shallowly embedded:
pure helpers become Lean functions, the stateful generation loop becomes
explicit list processing, the generated `Values`/`Do` routines become
functions over an explicit call state, and Go panics / error returns become
`Option` / `Except` values.
-/

set_option maxHeartbeats 1000000

namespace GenMethods

/-- One parameter of an endpoint, mirroring the Go struct `Argument`
(genmethods.go lines 36-43).  `type_` holds the Go type string exactly as
it appears in the catalog (the generator dispatches on that string). -/
structure Argument where
  name : String
  type_ : String
  required : Bool
  default_ : String
  queryName : String
  comment : String
deriving DecidableEq

/-- One endpoint record, mirroring the Go struct `Endpoint`
(genmethods.go lines 25-34).  `file` and `methodName` are the lowercase
fields that `_main` fills in during the grouping pass. -/
structure Endpoint where
  file : String
  methodName : String
  group : String
  name : String
  json : String
  args : List Argument
  returnType : String
  skipToken : Bool
deriving DecidableEq

/-- The separator test of `camelit`: `r == '.' || r == '_'`. -/
def isSep (c : Char) : Bool := c = '.' || c = '_'

/-- The rune loop of `camelit` (genmethods.go lines 49-62).  The flag is
true exactly when the Go condition `i == 0 || upnext` holds, i.e. when the
current rune is upper-cased unconditionally; a separator met while the
flag is false is consumed and sets the flag.  `Char.toUpper` models
`unicode.ToUpper`; the two agree on all ASCII input. -/
def camelitAux : Bool → List Char → List Char
  | _, [] => []
  | true, c :: cs => c.toUpper :: camelitAux false cs
  | false, c :: cs => if isSep c then camelitAux true cs else c :: camelitAux false cs

/-- `camelit` (genmethods.go lines 45-64): PascalCase transform treating
`.` and `_` as word separators. -/
def camelit (s : String) : String := String.mk (camelitAux true s.data)

/-- `true` when no separator character immediately follows another
separator character in the list. -/
def noDoubleSep : List Char → Bool
  | [] => true
  | [_] => true
  | a :: b :: rest => !(isSep a && isSep b) && noDoubleSep (b :: rest)

theorem noDoubleSep_tail {a : Char} {l : List Char} (h : noDoubleSep (a :: l) = true) :
    noDoubleSep l = true := by
  cases l with
  | nil => rfl
  | cons b t =>
    have h' := h
    simp only [noDoubleSep, Bool.and_eq_true] at h'
    exact h'.2

theorem isSep_eq_true_iff {c : Char} : isSep c = true ↔ c = '.' ∨ c = '_' := by
  simp [isSep]

theorem toUpper_toNat_of_lower {c : Char} (h : 97 ≤ c.toNat ∧ c.toNat ≤ 122) :
    c.toUpper.toNat = c.toNat - 32 := by
  have hval : (c.toNat - 32).isValidChar := by
    left
    omega
  simp only [Char.toUpper, ge_iff_le, h, and_self, if_true]
  rw [Char.ofNat, dif_pos hval]
  rfl

/-- Upper-casing never turns a non-separator character into a separator. -/
theorem isSep_toUpper (c : Char) : isSep c.toUpper = isSep c := by
  by_cases hs : isSep c = true
  · rcases isSep_eq_true_iff.mp hs with h | h <;> subst h <;> decide
  · simp only [hs]
    by_cases hl : 97 ≤ c.toNat ∧ c.toNat ≤ 122
    · have ht := toUpper_toNat_of_lower hl
      rw [Bool.eq_false_iff]
      intro habs
      rcases isSep_eq_true_iff.mp habs with h | h
      · have : c.toUpper.toNat = 46 := by rw [h]; rfl
        omega
      · have : c.toUpper.toNat = 95 := by rw [h]; rfl
        omega
    · have : c.toUpper = c := by
        simp only [Char.toUpper]
        split
        · next hcond => exact absurd hcond hl
        · rfl
      rw [this]
      exact Bool.eq_false_iff.mpr hs

theorem camelitAux_no_sep :
    ∀ (cs : List Char) (flag : Bool),
      noDoubleSep cs = true →
      (flag = true → ∀ c cs', cs = c :: cs' → isSep c = false) →
      ∀ x ∈ camelitAux flag cs, isSep x = false := by
  intro cs
  induction cs with
  | nil =>
    intro flag _ _ x hx
    cases flag <;> simp [camelitAux] at hx
  | cons c cs' ih =>
    intro flag hnd hflag x hx
    cases flag with
    | true =>
      have hc : isSep c = false := hflag rfl c cs' rfl
      simp only [camelitAux, List.mem_cons] at hx
      rcases hx with hx | hx
      · subst hx
        rw [isSep_toUpper]
        exact hc
      · exact ih false (noDoubleSep_tail hnd) (by intro h; exact absurd h (by simp)) x hx
    | false =>
      by_cases hc : isSep c = true
      · simp only [camelitAux, hc, if_true] at hx
        refine ih true (noDoubleSep_tail hnd) ?_ x hx
        intro _ b cs'' hcs
        subst hcs
        simp only [noDoubleSep, Bool.and_eq_true, Bool.not_eq_true'] at hnd
        rcases Bool.and_eq_false_iff.mp hnd.1 with h | h
        · exact absurd hc (by simp [h])
        · exact h
      · have hc' : isSep c = false := Bool.eq_false_iff.mpr hc
        simp only [camelitAux, hc', Bool.false_eq_true, if_false, List.mem_cons] at hx
        rcases hx with hx | hx
        · subst hx; exact hc'
        · exact ih false (noDoubleSep_tail hnd) (by intro h; exact absurd h (by simp)) x hx

/-- Claim C4 fails on the code as stated: a separator in the very first
position is upper-cased (hence emitted unchanged) rather than consumed,
because `camelit` tests `i == 0 || upnext` before the separator test.
Concretely `camelit ".a" = ".a"`, whose output contains `'.'`. -/
theorem c4_counterexample :
    camelit ".a" = ".a" ∧ '.' ∈ (camelit ".a").data ∧ '_' ∈ (camelit "a__b").data := by
  refine ⟨by decide, by decide, by decide⟩

/-- Claim C4 (amended): for every input string whose first character is not
a separator and in which no separator immediately follows another
separator, the output of `camelit` contains no `'.'` and no `'_'`. -/
theorem c4_no_separators (s : String)
    (h1 : isSep (s.data.headD 'A') = false)
    (h2 : noDoubleSep s.data = true) :
    ∀ x ∈ (camelit s).data, isSep x = false := by
  intro x hx
  refine camelitAux_no_sep s.data true h2 ?_ x hx
  intro _ c cs hcs
  rw [hcs] at h1
  exact h1

/-- Witness for C4's amended theorem at the concrete input `"a_b.c"`. -/
theorem c4_witness : ('.' ∈ (camelit "a_b.c").data) = False := by
  simp only [eq_iff_iff, iff_false]
  intro hmem
  exact absurd (c4_no_separators "a_b.c" (by decide) (by decide) '.' hmem) (by decide)

theorem camelitAux_false_id :
    ∀ (cs : List Char), (∀ c ∈ cs, isSep c = false) → camelitAux false cs = cs := by
  intro cs
  induction cs with
  | nil => intro _; rfl
  | cons c cs' ih =>
    intro h
    have hc : isSep c = false := h c (List.mem_cons_self c cs')
    simp only [camelitAux, hc, Bool.false_eq_true, if_false, List.cons.injEq, true_and]
    exact ih (fun d hd => h d (List.mem_cons_of_mem c hd))

/-- Claim C5: the two concrete transforms from the spec, the empty string,
and idempotence of `camelit` on separator-free strings whose first
character is fixed by upper-casing (in particular on PascalCase input). -/
theorem c5_examples :
    camelit "chat.postMessage" = "ChatPostMessage"
    ∧ camelit "a_b.c" = "ABC"
    ∧ camelit "" = ""
    ∧ ∀ s : String, (∀ c ∈ s.data, isSep c = false) →
        (s.data.headD 'A').toUpper = s.data.headD 'A' → camelit s = s := by
  refine ⟨by decide, by decide, by decide, ?_⟩
  intro s hsep hup
  cases s with
  | mk data =>
    cases data with
    | nil => rfl
    | cons c cs =>
      simp only [List.headD_cons] at hup
      simp only [camelit, camelitAux]
      rw [hup, camelitAux_false_id cs (fun d hd => hsep d (List.mem_cons_of_mem c hd))]

/-- Witness for C5's idempotence clause at the concrete input `"Abc"`. -/
theorem c5_witness : camelit "Abc" = "Abc" :=
  c5_examples.2.2.2 "Abc" (by decide) (by decide)

/-- Split a character list at its last `'.'`, mirroring
`i := strings.LastIndexByte(endpoint.Name, '.')` followed by the slices
`Name[:i]` and `Name[i+1:]`.  `none` models `i == -1`, in which case the
Go code's `Name[:i]` panics. -/
def splitLastDot : List Char → Option (List Char × List Char)
  | [] => none
  | c :: cs =>
    match splitLastDot cs with
    | some (ns, ms) => some (c :: ns, ms)
    | none => if c = '.' then some ([], cs) else none

theorem splitLastDot_eq_none {l : List Char} : splitLastDot l = none ↔ '.' ∉ l := by
  induction l with
  | nil => simp [splitLastDot]
  | cons c cs ih =>
    simp only [splitLastDot, List.mem_cons]
    cases h : splitLastDot cs with
    | some p =>
      simp only []
      constructor
      · intro habs; exact absurd habs (by simp)
      · intro habs
        exact absurd (ih.mpr (fun hm => habs (Or.inr hm))) (by simp [h])
    | none =>
      by_cases hc : c = '.'
      · simp [hc]
      · have : ¬ ('.' = c) := fun he => hc he.symm
        simp [hc, this, ih.mp h]

/-- The per-endpoint body of the grouping loop in `_main`
(genmethods.go lines 81-91): compute the output file from the namespace,
default an empty `Group` to `camelit` of the namespace, and set
`methodName` to `camelit` of the part after the last dot.  `none` models
the Go panic on a name with no `'.'`. -/
def processEndpoint (e : Endpoint) : Option Endpoint :=
  match splitLastDot e.name.data with
  | none => none
  | some (ns, ms) =>
    some { e with
      file := String.mk (ns.map fun ch => if ch = '.' then '_' else ch) ++ ".go",
      group := if e.group.length = 0 then camelit (String.mk ns) else e.group,
      methodName := camelit (String.mk ms) }

/-- The whole grouping loop of `_main`: every endpoint of the catalog is
processed; if any endpoint panics the run aborts. -/
def processAll : List Endpoint → Option (List Endpoint)
  | [] => some []
  | e :: rest =>
    match processEndpoint e with
    | none => none
    | some e' =>
      match processAll rest with
      | none => none
      | some p => some (e' :: p)

/-- The bucket of one output file: `group[endpoint.file]` accumulates the
processed endpoints in catalog order (genmethods.go line 88). -/
def bucket (p : List Endpoint) (f : String) : List Endpoint :=
  p.filter (fun e => e.file = f)

/-- Lexicographic comparison of character lists by code point; this is the
order Go's `strings.Compare` and `sort.Strings` induce (UTF-8 byte order
coincides with code-point order). -/
def charListLe : List Char → List Char → Bool
  | [], _ => true
  | _ :: _, [] => false
  | a :: as, b :: bs =>
    if a < b then true
    else if b < a then false
    else charListLe as bs

/-- Lexicographic string order used to model all sorting in the generator. -/
def strLe (a b : String) : Prop := charListLe a.data b.data = true

instance : DecidableRel strLe :=
  fun a b => inferInstanceAs (Decidable (charListLe a.data b.data = true))

theorem charListLe_cons_iff {a b : Char} {as bs : List Char} :
    charListLe (a :: as) (b :: bs) = true ↔ a < b ∨ (a = b ∧ charListLe as bs = true) := by
  by_cases h1 : a < b
  · simp [charListLe, h1]
  · by_cases h2 : b < a
    · simp only [charListLe, if_neg h1, if_pos h2]
      constructor
      · intro h; exact absurd h (by simp)
      · rintro (h | ⟨h, _⟩)
        · exact absurd h h1
        · subst h; exact absurd h2 (lt_irrefl a)
    · have hab : a = b := le_antisymm (le_of_not_lt h2) (le_of_not_lt h1)
      subst hab
      simp [charListLe, h1]

theorem charListLe_total : ∀ l₁ l₂ : List Char, charListLe l₁ l₂ = true ∨ charListLe l₂ l₁ = true
  | [], _ => Or.inl rfl
  | _ :: _, [] => Or.inr rfl
  | a :: as, b :: bs => by
    rcases lt_trichotomy a b with h | h | h
    · exact Or.inl (charListLe_cons_iff.mpr (Or.inl h))
    · subst h
      rcases charListLe_total as bs with h' | h'
      · exact Or.inl (charListLe_cons_iff.mpr (Or.inr ⟨rfl, h'⟩))
      · exact Or.inr (charListLe_cons_iff.mpr (Or.inr ⟨rfl, h'⟩))
    · exact Or.inr (charListLe_cons_iff.mpr (Or.inl h))

theorem charListLe_trans :
    ∀ {l₁ l₂ l₃ : List Char}, charListLe l₁ l₂ = true → charListLe l₂ l₃ = true →
      charListLe l₁ l₃ = true
  | [], _, _, _, _ => rfl
  | _ :: _, [], _, h₁, _ => by exact absurd h₁ (by simp [charListLe])
  | _ :: _, _ :: _, [], _, h₂ => by exact absurd h₂ (by simp [charListLe])
  | a :: as, b :: bs, c :: cs, h₁, h₂ => by
    rcases charListLe_cons_iff.mp h₁ with hab | ⟨hab, h₁'⟩
    · rcases charListLe_cons_iff.mp h₂ with hbc | ⟨hbc, _⟩
      · exact charListLe_cons_iff.mpr (Or.inl (lt_trans hab hbc))
      · subst hbc
        exact charListLe_cons_iff.mpr (Or.inl hab)
    · subst hab
      rcases charListLe_cons_iff.mp h₂ with hbc | ⟨hbc, h₂'⟩
      · exact charListLe_cons_iff.mpr (Or.inl hbc)
      · subst hbc
        exact charListLe_cons_iff.mpr (Or.inr ⟨rfl, charListLe_trans h₁' h₂'⟩)

theorem charListLe_antisymm :
    ∀ {l₁ l₂ : List Char}, charListLe l₁ l₂ = true → charListLe l₂ l₁ = true → l₁ = l₂
  | [], [], _, _ => rfl
  | [], _ :: _, _, h₂ => by exact absurd h₂ (by simp [charListLe])
  | _ :: _, [], h₁, _ => by exact absurd h₁ (by simp [charListLe])
  | a :: as, b :: bs, h₁, h₂ => by
    rcases charListLe_cons_iff.mp h₁ with hab | ⟨hab, h₁'⟩
    · rcases charListLe_cons_iff.mp h₂ with hba | ⟨hba, _⟩
      · exact absurd hba (lt_asymm hab)
      · subst hba; exact absurd hab (lt_irrefl b)
    · subst hab
      rcases charListLe_cons_iff.mp h₂ with hba | ⟨_, h₂'⟩
      · exact absurd hba (lt_irrefl a)
      · rw [charListLe_antisymm h₁' h₂']

theorem strLe_antisymm_eq {a b : String} (h₁ : strLe a b) (h₂ : strLe b a) : a = b := by
  cases a with
  | mk d₁ =>
    cases b with
    | mk d₂ =>
      have : d₁ = d₂ := charListLe_antisymm h₁ h₂
      rw [this]

instance : IsTotal String strLe := ⟨fun a b => charListLe_total a.data b.data⟩

instance : IsTrans String strLe := ⟨fun _ _ _ h₁ h₂ => charListLe_trans h₁ h₂⟩

instance : IsAntisymm String strLe := ⟨fun _ _ h₁ h₂ => strLe_antisymm_eq h₁ h₂⟩

/-- Comparison used by `sort.Slice` on endpoints:
`strings.Compare(endpoints[i].Name, endpoints[j].Name) < 0` (line 141). -/
def byName (a b : Endpoint) : Prop := strLe a.name b.name

instance : DecidableRel byName := fun a b => inferInstanceAs (Decidable (strLe a.name b.name))

instance : IsTotal Endpoint byName := ⟨fun a b => charListLe_total a.name.data b.name.data⟩

instance : IsTrans Endpoint byName := ⟨fun _ _ _ h₁ h₂ => charListLe_trans h₁ h₂⟩

/-- Comparison used by `sort.Slice` on arguments (line 165). -/
def byArgName (a b : Argument) : Prop := strLe a.name b.name

instance : DecidableRel byArgName := fun a b => inferInstanceAs (Decidable (strLe a.name b.name))

instance : IsTotal Argument byArgName := ⟨fun a b => charListLe_total a.name.data b.name.data⟩

instance : IsTrans Argument byArgName := ⟨fun _ _ _ h₁ h₂ => charListLe_trans h₁ h₂⟩

/-- The sorted list of distinct groups, as produced by the `groups` set in
`_main` and the sort in `generateServicesFile` (lines 105-110). -/
def groupNames (p : List Endpoint) : List String :=
  List.insertionSort strLe (p.map (fun e => e.group)).dedup

/-- Arguments of one endpoint in the order every later loop of
`generateServiceDetailsFile` traverses them: sorted by name. -/
def sortArgs (args : List Argument) : List Argument :=
  List.insertionSort byArgName args

/-- Endpoints of one output file in emission order: sorted by full dotted
name (genmethods.go lines 141-143). -/
def sortedBucket (p : List Endpoint) (f : String) : List Endpoint :=
  List.insertionSort byName (bucket p f)

/-- One endpoint as it is rendered inside its file: its arguments are
emitted in sorted order. -/
def renderEndpoint (e : Endpoint) : Endpoint :=
  { e with args := sortArgs e.args }

/-- The structural content of one generated output file: the endpoints of
the bucket, sorted by name, each with sorted arguments. -/
def renderFile (p : List Endpoint) (f : String) : List Endpoint :=
  (sortedBucket p f).map renderEndpoint

theorem processAll_isSome :
    ∀ c : List Endpoint, (∀ e ∈ c, (processEndpoint e).isSome = true) →
      (processAll c).isSome = true := by
  intro c
  induction c with
  | nil => intro _; rfl
  | cons e rest ih =>
    intro h
    have he := h e (List.mem_cons_self e rest)
    cases hpe : processEndpoint e with
    | none => rw [hpe] at he; exact absurd he (by simp)
    | some e' =>
      have hrest := ih (fun x hx => h x (List.mem_cons_of_mem e hx))
      cases hall : processAll rest with
      | none => rw [hall] at hrest; exact absurd hrest (by simp)
      | some p => simp [processAll, hpe, hall]

theorem groupNames_nodup (p : List Endpoint) : (groupNames p).Nodup := by
  unfold groupNames
  exact (List.perm_insertionSort strLe _).symm.nodup (List.nodup_dedup _)

/-- Claim C8: after the grouping pass (`_main`, lines 79-103), the output
file of an endpoint is its namespace with every `'.'` replaced by `'_'`
(plus the `.go` file extension), an empty `group` field defaults to the
PascalCase transform of the namespace, every processed endpoint lies in
exactly one output-file bucket, and the collected group set has no
duplicates. -/
theorem c8_grouping (e : Endpoint) (ns ms : List Char) (c p : List Endpoint)
    (hsplit : splitLastDot e.name.data = some (ns, ms))
    (hall : processAll c = some p) :
    (∀ e', processEndpoint e = some e' →
       e'.file = String.mk (ns.map fun ch => if ch = '.' then '_' else ch) ++ ".go"
       ∧ (e.group.length = 0 → e'.group = camelit (String.mk ns)))
    ∧ (∀ x ∈ p, ∃! f, x ∈ bucket p f)
    ∧ (groupNames p).Nodup := by
  refine ⟨?_, ?_, groupNames_nodup p⟩
  · intro e' h
    rw [processEndpoint, hsplit] at h
    have he' := Option.some.inj h
    subst he'
    exact ⟨rfl, fun hg => by simp [hg]⟩
  · intro x hx
    refine ⟨x.file, ?_, ?_⟩
    · simp [bucket, List.mem_filter, hx]
    · intro f hf
      have := List.mem_filter.mp hf
      have hxf : x.file = f := by simpa using this.2
      exact hxf.symm

/-- Claim C10: the grouping step of `_main` is total exactly under the
precondition that every endpoint name contains a `'.'`.  An endpoint name
with no dot makes `strings.LastIndexByte` return `-1` and the slice
`Name[:-1]` panic, modelled here by `processEndpoint` returning `none`;
when every name has a dot the whole pass succeeds. -/
theorem c10_no_dot_panics (c : List Endpoint) :
    (∀ e : Endpoint, '.' ∉ e.name.data → processEndpoint e = none)
    ∧ ((∀ e ∈ c, '.' ∈ e.name.data) → (processAll c).isSome = true) := by
  constructor
  · intro e h
    rw [processEndpoint, splitLastDot_eq_none.mpr h]
  · intro h
    refine processAll_isSome c ?_
    intro e he
    cases hs : splitLastDot e.name.data with
    | none => exact absurd (splitLastDot_eq_none.mp hs) (by simp [h e he])
    | some p => simp [processEndpoint, hs]

/-- Sample catalog endpoint: `chat.postMessage` with no explicit group. -/
def epChat : Endpoint :=
  { file := "", methodName := "", group := "", name := "chat.postMessage",
    json := "", args := [], returnType := "", skipToken := false }

/-- `epChat` after the grouping pass. -/
def epChatP : Endpoint :=
  { file := "chat.go", methodName := "PostMessage", group := "Chat",
    name := "chat.postMessage", json := "", args := [], returnType := "",
    skipToken := false }

/-- Sample endpoint whose name contains no dot. -/
def epNoDot : Endpoint :=
  { file := "", methodName := "", group := "", name := "nodots",
    json := "", args := [], returnType := "", skipToken := false }

/-- Witness for C8 at the concrete endpoint `chat.postMessage`. -/
theorem c8_witness :
    epChatP.file = String.mk ("chat".data.map fun ch => if ch = '.' then '_' else ch) ++ ".go"
    ∧ (epChat.group.length = 0 → epChatP.group = camelit (String.mk "chat".data))
    ∧ (groupNames [epChatP]).Nodup := by
  have h := c8_grouping epChat "chat".data "postMessage".data [epChat] [epChatP]
    (by decide) (by decide)
  exact ⟨(h.1 epChatP (by decide)).1, (h.1 epChatP (by decide)).2, h.2.2⟩

/-- Witness for C10: a dotless name aborts; a catalog of dotted names
processes successfully. -/
theorem c10_witness :
    processEndpoint epNoDot = none ∧ (processAll [epChat]).isSome = true :=
  ⟨(c10_no_dot_panics []).1 epNoDot (by decide),
   (c10_no_dot_panics [epChat]).2 (by decide)⟩

/-- The runtime value of one field of a generated call struct.  The
generated `Values` routine observes a string field's length and content, a
bool field's value, an int field's value, a `...List` field's length and
`Encode()` result, and any other field's nil-ness and `Encode()` result;
list elements and object contents are represented by opaque string
identities, their `Encode()` behaviour living in `EncodeEnv`. -/
inductive ArgValue where
  | str (s : String)
  | boolean (b : Bool)
  | intVal (n : Int)
  | list (elems : List String)
  | obj (o : Option String)
deriving DecidableEq

/-- The fields of one generated call struct: argument name to value. -/
def CallState := String → ArgValue

/-- The external `Encode()` collaborators invoked by the generated code on
list-typed and object-typed fields; both may fail. -/
structure EncodeEnv where
  listEncode : String → List String → Except String String
  objEncode : String → String → Except String String

/-- `url.Values.Set`: the mapping is keyed by string, `Set` replaces. -/
def setVal (m : String → Option String) (k v : String) : String → Option String :=
  fun k' => if k' = k then some v else m k'

/-- The mapping before argument processing: empty, except that unless
`SkipToken` is set the auth token is stored under the fixed key `token`
(genmethods.go lines 242-245). -/
def initVals (e : Endpoint) (tok : String) : String → Option String :=
  if e.skipToken then fun _ => none else setVal (fun _ => none) "token" tok

/-- The serialized parameter key of an argument: `QueryName` when
non-empty, otherwise `Name` (genmethods.go lines 292-295). -/
def queryKey (a : Argument) : String :=
  if a.queryName.length > 0 then a.queryName else a.name

/-- `strings.HasSuffix`, on the character-list view of strings (the
suffixes the generator tests — `"List"`, `"es"`, `"s"` — are ASCII, where
byte-suffix and character-suffix coincide). -/
def strEndsWith (s suffix : String) : Bool := List.isSuffixOf suffix.data s.data

/-- Drop the last `n` characters of a string, the effect of Go's
`s[:len(s)-n]` on ASCII suffix lengths. -/
def strDropRight (s : String) (n : Nat) : String :=
  String.mk (s.data.take (s.data.length - n))

/-- The `requiredCheck` emptiness test of `Values` for a required argument
(genmethods.go lines 253-275), per Go type string: `len(c.x) <= 0` for
`string`, `!c.x` for `bool`, `c.x == 0` for `int`, `len(c.x) <= 0` for a
`...List` type, `c.x == nil` otherwise.  A value that does not match the
declared type (impossible for a well-typed call struct) counts as empty. -/
def requiredEmpty (t : String) (v : ArgValue) : Bool :=
  if t = "string" then
    match v with
    | .str s => decide (s.length ≤ 0)
    | _ => true
  else if t = "bool" then
    match v with
    | .boolean b => !b
    | _ => true
  else if t = "int" then
    match v with
    | .intVal n => decide (n = 0)
    | _ => true
  else if strEndsWith t "List" then
    match v with
    | .list xs => decide (xs.length ≤ 0)
    | _ => true
  else
    match v with
    | .obj o => o.isNone
    | _ => true

/-- The `optionalCheck` presence test of `Values` for an optional argument
(genmethods.go lines 253-275): `len(c.x) > 0` for `string`, `c.x` for
`bool`, `c.x > 0` for `int` (note: strictly positive, not non-zero),
`len(c.x) > 0` for a `...List` type, `c.x != nil` otherwise. -/
def optionalSet (t : String) (v : ArgValue) : Bool :=
  if t = "string" then
    match v with
    | .str s => decide (s.length > 0)
    | _ => false
  else if t = "bool" then
    match v with
    | .boolean b => b
    | _ => false
  else if t = "int" then
    match v with
    | .intVal n => decide (n > 0)
    | _ => false
  else if strEndsWith t "List" then
    match v with
    | .list xs => decide (xs.length > 0)
    | _ => false
  else
    match v with
    | .obj o => o.isSome
    | _ => false

/-- The `assignValue` encoding of `Values` (genmethods.go lines 252-267):
the string itself, the literal `"true"` for `bool`, `strconv.Itoa` for
`int`, and the field's own `Encode()` for composite types, whose failure
is wrapped as `errors.Wrap(err, "failed to encode field")`. -/
def encodeValue (env : EncodeEnv) (t : String) (v : ArgValue) : Except String String :=
  if t = "string" then
    match v with
    | .str s => .ok s
    | _ => .error "type mismatch"
  else if t = "bool" then
    .ok "true"
  else if t = "int" then
    match v with
    | .intVal n => .ok (toString n)
    | _ => .error "type mismatch"
  else
    match
      (match v with
       | .list xs => env.listEncode t xs
       | .obj (some o) => env.objEncode t o
       | _ => .error "nil value") with
    | .ok s => .ok s
    | .error msg => .error ("failed to encode field: " ++ msg)

/-- What the `Values` routine does for one argument: fail with the
"missing required parameter" error, fail with an encode error, set its
encoded value (`some s`), or skip it (`none`). -/
def argStep (env : EncodeEnv) (st : CallState) (a : Argument) : Except String (Option String) :=
  if a.required then
    if requiredEmpty a.type_ (st a.name) then
      .error ("missing required parameter " ++ a.name)
    else
      (encodeValue env a.type_ (st a.name)).map some
  else
    if optionalSet a.type_ (st a.name) then
      (encodeValue env a.type_ (st a.name)).map some
    else
      .ok none

/-- The argument loop of the generated `Values` routine
(genmethods.go lines 246-301): arguments processed in order, the first
failure aborting the whole routine with no mapping. -/
def processArgs (env : EncodeEnv) (st : CallState) :
    List Argument → (String → Option String) → Except String (String → Option String)
  | [], m => .ok m
  | a :: rest, m =>
    match argStep env st a with
    | .error msg => .error msg
    | .ok none => processArgs env st rest m
    | .ok (some s) => processArgs env st rest (setVal m (queryKey a) s)

/-- The generated `Values` routine: token first (unless skipped), then the
endpoint's arguments in sorted-by-name order. -/
def values (env : EncodeEnv) (e : Endpoint) (tok : String) (st : CallState) :
    Except String (String → Option String) :=
  processArgs env st (sortArgs e.args) (initVals e tok)

theorem processArgs_pres {env : EncodeEnv} {st : CallState} {k : String} :
    ∀ {l : List Argument} {m m' : String → Option String},
      (∀ b ∈ l, queryKey b = k → argStep env st b = .ok none) →
      processArgs env st l m = .ok m' → m' k = m k := by
  intro l
  induction l with
  | nil =>
    intro m m' _ hp
    have := Except.ok.inj hp
    rw [← this]
  | cons a t ih =>
    intro m m' hskip hp
    cases ha : argStep env st a with
    | error msg => rw [processArgs, ha] at hp; exact absurd hp (by simp)
    | ok r =>
      cases r with
      | none =>
        rw [processArgs, ha] at hp
        exact ih (fun b hb hk => hskip b (List.mem_cons_of_mem a hb) hk) hp
      | some s =>
        rw [processArgs, ha] at hp
        by_cases hk : queryKey a = k
        · have := hskip a (List.mem_cons_self a t) hk
          rw [ha] at this
          exact absurd (Except.ok.inj this) (by simp)
        · have h' := ih (fun b hb hk' => hskip b (List.mem_cons_of_mem a hb) hk') hp
          rw [h']
          simp only [setVal]
          rw [if_neg (fun h => hk h.symm)]

theorem processArgs_last_set {env : EncodeEnv} {st : CallState} {k s : String} :
    ∀ {l : List Argument} {m m' : String → Option String},
      (∃ a ∈ l, queryKey a = k) →
      (∀ b ∈ l, queryKey b = k → argStep env st b = .ok (some s)) →
      processArgs env st l m = .ok m' → m' k = some s := by
  intro l
  induction l with
  | nil =>
    intro m m' hex _ _
    exact absurd hex (by simp)
  | cons a t ih =>
    intro m m' hex hset hp
    cases ha : argStep env st a with
    | error msg => rw [processArgs, ha] at hp; exact absurd hp (by simp)
    | ok r =>
      by_cases hk : queryKey a = k
      · have hstep := hset a (List.mem_cons_self a t) hk
        rw [ha] at hstep
        have hr : r = some s := Except.ok.inj hstep
        subst hr
        rw [processArgs, ha, hk] at hp
        by_cases hex' : ∃ b ∈ t, queryKey b = k
        · exact ih hex' (fun b hb hk' => hset b (List.mem_cons_of_mem a hb) hk') hp
        · have hpres := processArgs_pres
            (fun b hb hk' => absurd ⟨b, hb, hk'⟩ hex') hp
          rw [hpres]
          simp [setVal]
      · have hex' : ∃ b ∈ t, queryKey b = k := by
          rcases hex with ⟨b, hb, hkb⟩
          rcases List.mem_cons.mp hb with h | h
          · subst h; exact absurd hkb hk
          · exact ⟨b, h, hkb⟩
        cases r with
        | none =>
          rw [processArgs, ha] at hp
          exact ih hex' (fun b hb hk' => hset b (List.mem_cons_of_mem a hb) hk') hp
        | some s' =>
          rw [processArgs, ha] at hp
          exact ih hex' (fun b hb hk' => hset b (List.mem_cons_of_mem a hb) hk') hp

theorem processArgs_prefix_error {env : EncodeEnv} {st : CallState} {a : Argument}
    {msg : String} :
    ∀ {l₁ l₂ : List Argument} {m : String → Option String},
      (∀ b ∈ l₁, ∃ r, argStep env st b = .ok r) →
      argStep env st a = .error msg →
      processArgs env st (l₁ ++ a :: l₂) m = .error msg := by
  intro l₁
  induction l₁ with
  | nil =>
    intro l₂ m _ ha
    rw [List.nil_append, processArgs, ha]
  | cons b t ih =>
    intro l₂ m hok ha
    rcases hok b (List.mem_cons_self b t) with ⟨r, hb⟩
    rw [List.cons_append, processArgs, hb]
    cases r with
    | none => exact ih (fun x hx => hok x (List.mem_cons_of_mem b hx)) ha
    | some s => exact ih (fun x hx => hok x (List.mem_cons_of_mem b hx)) ha

theorem processArgs_error_of_required_empty {env : EncodeEnv} {st : CallState} :
    ∀ {l : List Argument} {m : String → Option String},
      (∃ a ∈ l, a.required = true ∧ requiredEmpty a.type_ (st a.name) = true) →
      ∃ msg, processArgs env st l m = .error msg := by
  intro l
  induction l with
  | nil =>
    intro m hex
    exact absurd hex (by simp)
  | cons b t ih =>
    intro m hex
    cases hb : argStep env st b with
    | error msg => exact ⟨msg, by rw [processArgs, hb]⟩
    | ok r =>
      have hbt : ∃ a ∈ t, a.required = true ∧ requiredEmpty a.type_ (st a.name) = true := by
        rcases hex with ⟨a, ha, hreq, hemp⟩
        rcases List.mem_cons.mp ha with h | h
        · subst h
          rw [argStep, if_pos hreq, if_pos hemp] at hb
          exact absurd hb (by simp)
        · exact ⟨a, h, hreq, hemp⟩
      cases r with
      | none =>
        rcases ih hbt with ⟨msg, hmsg⟩
        exact ⟨msg, by rw [processArgs, hb]; exact hmsg⟩
      | some s =>
        rcases ih hbt with ⟨msg, hmsg⟩
        exact ⟨msg, by rw [processArgs, hb]; exact hmsg⟩

theorem initVals_eq_none {e : Endpoint} {tok k : String}
    (htok : e.skipToken = true ∨ k ≠ "token") : initVals e tok k = none := by
  cases hs : e.skipToken with
  | true => simp [initVals, hs]
  | false =>
    rcases htok with h | h
    · exact absurd hs (by simp [h])
    · simp [initVals, hs, setVal, h]

theorem values_key_none {env : EncodeEnv} {e : Endpoint} {tok : String} {st : CallState}
    {k : String}
    (hskip : ∀ b ∈ e.args, queryKey b = k → argStep env st b = .ok none)
    (htok : e.skipToken = true ∨ k ≠ "token")
    {m : String → Option String} (hm : values env e tok st = .ok m) : m k = none := by
  have h := processArgs_pres
    (fun b hb hk => hskip b ((List.mem_insertionSort byArgName).mp hb) hk) hm
  rw [h]
  exact initVals_eq_none htok

theorem values_key_some {env : EncodeEnv} {e : Endpoint} {tok : String} {st : CallState}
    {k s : String}
    (hex : ∃ a ∈ e.args, queryKey a = k)
    (hset : ∀ b ∈ e.args, queryKey b = k → argStep env st b = .ok (some s))
    {m : String → Option String} (hm : values env e tok st = .ok m) : m k = some s := by
  rcases hex with ⟨a, ha, hk⟩
  exact processArgs_last_set
    ⟨a, (List.mem_insertionSort byArgName).mpr ha, hk⟩
    (fun b hb hk' => hset b ((List.mem_insertionSort byArgName).mp hb) hk') hm

/-- Claim C1 (amended): whenever some required argument's emptiness test
holds on the call state, the `Values` routine fails and returns no mapping
(`nil`); arguments are processed in sorted-by-name order, and the error
message is `missing required parameter <name>` for the first argument in
that order whose required check fails, provided every argument before it
completes its own step without error. -/
theorem c1_required_error (env : EncodeEnv) (e : Endpoint) (tok : String) (st : CallState) :
    ((∃ a ∈ sortArgs e.args, a.required = true ∧ requiredEmpty a.type_ (st a.name) = true) →
       ∃ msg, values env e tok st = .error msg)
    ∧ (∀ l₁ a l₂, sortArgs e.args = l₁ ++ a :: l₂ →
         a.required = true → requiredEmpty a.type_ (st a.name) = true →
         (∀ b ∈ l₁, ∃ r, argStep env st b = .ok r) →
         values env e tok st = .error ("missing required parameter " ++ a.name)) := by
  constructor
  · intro hex
    exact processArgs_error_of_required_empty hex
  · intro l₁ a l₂ hsplit hreq hemp hok
    rw [values, hsplit]
    exact processArgs_prefix_error hok (by rw [argStep, if_pos hreq, if_pos hemp])

/-- Trivial encoders for the sample endpoints (no composite arguments). -/
def env0 : EncodeEnv := ⟨fun _ _ => .ok "", fun _ _ => .ok ""⟩

def alphaArg : Argument :=
  { name := "alpha", type_ := "string", required := true, default_ := "",
    queryName := "", comment := "" }

def betaArg : Argument :=
  { name := "beta", type_ := "string", required := true, default_ := "",
    queryName := "", comment := "" }

/-- Sample endpoint with two required string arguments. -/
def epMulti : Endpoint :=
  { file := "", methodName := "", group := "G", name := "g.m", json := "",
    args := [alphaArg, betaArg], returnType := "", skipToken := true }

/-- Call state in which every string field is empty. -/
def stEmpty : CallState := fun _ => .str ""

/-- Counterexample to claim C1 as stated: with the required arguments
`alpha` and `beta` both empty, `beta`'s emptiness test holds, yet the
error names only `alpha` (the sorted-first failing argument); the message
does not contain `missing required parameter beta`. -/
theorem c1_counterexample :
    (∃ a ∈ sortArgs epMulti.args, a.required = true ∧ a.name = "beta"
       ∧ requiredEmpty a.type_ (stEmpty a.name) = true)
    ∧ values env0 epMulti "tok" stEmpty = .error "missing required parameter alpha"
    ∧ ¬ ("missing required parameter beta").data <:+: ("missing required parameter alpha").data :=
  ⟨by decide, rfl, by decide⟩

/-- Witness for C1's amended theorem: the first empty required argument is
reported and the routine yields no mapping. -/
theorem c1_witness :
    values env0 epMulti "tok" stEmpty = .error ("missing required parameter " ++ "alpha") :=
  (c1_required_error env0 epMulti "tok" stEmpty).2 [] alphaArg [betaArg]
    (by decide) rfl (by decide) (by simp)

theorem argStep_bool (env : EncodeEnv) (st : CallState) (a : Argument) (b : Bool)
    (ht : a.type_ = "bool") (hr : a.required = false) (hv : st a.name = .boolean b) :
    argStep env st a = .ok (if b then some "true" else none) := by
  cases b with
  | true => simp [argStep, hr, ht, hv, optionalSet, encodeValue, Except.map]
  | false => simp [argStep, hr, ht, hv, optionalSet]

/-- Claim C2: for an optional boolean argument whose serialized key is its
own (no other argument maps to the same key, and the key is not the auth
token key), the generated `Values` routine maps the key to the literal
`"true"` exactly when the field is true, omits the key entirely when the
field is false, and can never map the key to the literal `"false"`. -/
theorem c2_optional_bool (env : EncodeEnv) (e : Endpoint) (tok : String) (st : CallState)
    (a : Argument) (b : Bool)
    (ha : a ∈ e.args) (ht : a.type_ = "bool") (hr : a.required = false)
    (hv : st a.name = .boolean b)
    (hkeys : ∀ a' ∈ e.args, queryKey a' = queryKey a →
       a'.type_ = "bool" ∧ a'.required = false ∧ a'.name = a.name)
    (htok : e.skipToken = true ∨ queryKey a ≠ "token")
    (m : String → Option String) (hm : values env e tok st = .ok m) :
    m (queryKey a) = (if b then some "true" else none)
    ∧ m (queryKey a) ≠ some "false" := by
  have hmain : m (queryKey a) = (if b then some "true" else none) := by
    cases b with
    | true =>
      refine (if_pos rfl) ▸ values_key_some ⟨a, ha, rfl⟩ ?_ hm
      intro a' ha' hk
      obtain ⟨ht', hr', hn'⟩ := hkeys a' ha' hk
      have hv' : st a'.name = .boolean true := by rw [hn', hv]
      simpa using argStep_bool env st a' true ht' hr' hv'
    | false =>
      refine (if_neg Bool.false_ne_true) ▸ values_key_none ?_ htok hm
      intro a' ha' hk
      obtain ⟨ht', hr', hn'⟩ := hkeys a' ha' hk
      have hv' : st a'.name = .boolean false := by rw [hn', hv]
      simpa using argStep_bool env st a' false ht' hr' hv'
  refine ⟨hmain, ?_⟩
  rw [hmain]
  cases b <;> simp

def flagArg : Argument :=
  { name := "flag", type_ := "bool", required := false, default_ := "",
    queryName := "", comment := "" }

/-- Sample endpoint with one optional boolean argument. -/
def epBool : Endpoint :=
  { file := "", methodName := "", group := "G", name := "g.m", json := "",
    args := [flagArg], returnType := "", skipToken := false }

/-- Call state in which the boolean field `flag` is true. -/
def stBool : CallState := fun n => if n = "flag" then .boolean true else .str ""

/-- The mapping `values` produces for `epBool` on `stBool`. -/
def mBool : String → Option String := setVal (initVals epBool "tok") "flag" "true"

/-- Witness for C2 at a concrete optional boolean set to true. -/
theorem c2_witness : mBool "flag" = some "true" := by
  exact (c2_optional_bool env0 epBool "tok" stBool flagArg true (by decide) rfl rfl
    (by decide) (by decide) (Or.inr (by decide)) mBool rfl).1

theorem argStep_int (env : EncodeEnv) (st : CallState) (a : Argument) (n : Int)
    (ht : a.type_ = "int") (hr : a.required = false) (hv : st a.name = .intVal n) :
    argStep env st a = .ok (if 0 < n then some (toString n) else none) := by
  by_cases hn : 0 < n
  · simp [argStep, hr, ht, hv, optionalSet, encodeValue, Except.map, hn]
  · simp [argStep, hr, ht, hv, optionalSet, encodeValue, Except.map, hn]

/-- Claim C3 (amended): for an optional integer argument whose serialized
key is its own, the generated `Values` routine encodes the decimal string
of the value exactly when the value is strictly positive; both zero and
every negative value are omitted (the optional check is `c.x > 0`, not
`c.x != 0`).  Only required integer arguments use the `== 0` test. -/
theorem c3_optional_int (env : EncodeEnv) (e : Endpoint) (tok : String) (st : CallState)
    (a : Argument) (n : Int)
    (ha : a ∈ e.args) (ht : a.type_ = "int") (hr : a.required = false)
    (hv : st a.name = .intVal n)
    (hkeys : ∀ a' ∈ e.args, queryKey a' = queryKey a →
       a'.type_ = "int" ∧ a'.required = false ∧ a'.name = a.name)
    (htok : e.skipToken = true ∨ queryKey a ≠ "token")
    (m : String → Option String) (hm : values env e tok st = .ok m) :
    m (queryKey a) = (if 0 < n then some (toString n) else none) := by
  by_cases hn : 0 < n
  · rw [if_pos hn]
    refine values_key_some ⟨a, ha, rfl⟩ ?_ hm
    intro a' ha' hk
    obtain ⟨ht', hr', hn'⟩ := hkeys a' ha' hk
    have hv' : st a'.name = .intVal n := by rw [hn', hv]
    rw [argStep_int env st a' n ht' hr' hv', if_pos hn]
  · rw [if_neg hn]
    refine values_key_none ?_ htok hm
    intro a' ha' hk
    obtain ⟨ht', hr', hn'⟩ := hkeys a' ha' hk
    have hv' : st a'.name = .intVal n := by rw [hn', hv]
    rw [argStep_int env st a' n ht' hr' hv', if_neg hn]

def countArg : Argument :=
  { name := "count", type_ := "int", required := false, default_ := "",
    queryName := "", comment := "" }

/-- Sample endpoint with one optional integer argument. -/
def epInt : Endpoint :=
  { file := "", methodName := "", group := "G", name := "g.m", json := "",
    args := [countArg], returnType := "", skipToken := true }

/-- Call state in which the integer field `count` is `-1`. -/
def stNeg : CallState := fun n => if n = "count" then .intVal (-1) else .str ""

/-- Call state in which the integer field `count` is `7`. -/
def stPos : CallState := fun n => if n = "count" then .intVal 7 else .str ""

/-- Counterexample to claim C3 as stated: the optional integer argument
`count` holds the non-zero value `-1`, yet `Values` succeeds with the key
omitted — a negative optional integer is not encoded. -/
theorem c3_counterexample :
    (∃ a ∈ sortArgs epInt.args, a.required = false ∧ a.type_ = "int"
       ∧ stNeg a.name = ArgValue.intVal (-1))
    ∧ (values env0 epInt "tok" stNeg).map (fun m => m "count") = .ok none :=
  ⟨by decide, rfl⟩

/-- The mapping `values` produces for `epInt` on `stPos`. -/
def mInt : String → Option String := setVal (fun _ => none) "count" "7"

/-- Witness for C3's amended theorem: a positive optional integer is
encoded as its decimal string. -/
theorem c3_witness : mInt "count" = some "7" := by
  exact c3_optional_int env0 epInt "tok" stPos countArg 7 (by decide) rfl rfl
    (by decide) (by decide) (Or.inl rfl) mInt rfl

/-- `strings.TrimSuffix`: drop the suffix when present, else return the
string unchanged. -/
def trimSuffix (s suffix : String) : String :=
  if strEndsWith s suffix then strDropRight s suffix.length else s

/-- The singularization used for the append setter (genmethods.go lines
216-221): strip a trailing `"es"` if present, else a trailing `"s"`. -/
def singularName (n : String) : String :=
  if strEndsWith n "es" then trimSuffix n "es" else trimSuffix n "s"

/-- Modelled from the spec's wording of the singularization rule ("strip
trailing `es` if present, else trailing `s`"), for comparison with the
source's `singularName`. -/
def specSingular (n : String) : String :=
  if strEndsWith n "es" then strDropRight n 2
  else if strEndsWith n "s" then strDropRight n 1
  else n

theorem singularName_eq_specSingular (n : String) : singularName n = specSingular n := by
  unfold singularName specSingular trimSuffix
  by_cases h2 : strEndsWith n "es" = true
  · simp only [h2, if_true]
    rfl
  · by_cases h1 : strEndsWith n "s" = true <;> simp [h2, h1] <;> rfl

/-- The shape of one emitted optional-argument setter method: its name,
the name and type of its single parameter, and whether its body ends with
`return c` (the chaining return of the call object). -/
inductive SetterShape where
  | replace (name : String) (paramName : String) (paramType : String) (chains : Bool)
  | append (name : String) (paramName : String) (paramType : String) (chains : Bool)
  | scalar (name : String) (paramName : String) (paramType : String) (chains : Bool)
deriving DecidableEq

/-- The setter methods the Call Emitter produces for one argument
(genmethods.go lines 201-238): none for a required argument; a
`Set<PascalCase(name)>` replace setter plus a singularized append setter
(taking a pointer to one element) for a `...List`-typed argument; a single
scalar setter otherwise.  Every setter returns the call for chaining. -/
def settersFor (a : Argument) : List SetterShape :=
  if a.required then []
  else if strEndsWith a.type_ "List" then
    [.replace ("Set" ++ camelit a.name) a.name a.type_ true,
     .append (camelit (singularName a.name)) (singularName a.name)
       ("*" ++ trimSuffix a.type_ "List") true]
  else
    [.scalar (camelit a.name) a.name a.type_ true]

/-- Point update of a call state, the effect of a generated field
assignment `c.x = v`. -/
def updateState (st : CallState) (n : String) (v : ArgValue) : CallState :=
  fun n' => if n' = n then v else st n'

/-- Semantics of the generated replace setter `c.x = x` on a list field. -/
def setListField (st : CallState) (n : String) (xs : List String) : CallState :=
  updateState st n (.list xs)

/-- Semantics of the generated append setter `c.x.Append(v)`. -/
def appendListField (st : CallState) (n : String) (x : String) : CallState :=
  match st n with
  | .list xs => updateState st n (.list (xs ++ [x]))
  | _ => st

/-- Claim C6: for every non-required argument whose type is a list type,
the Call Emitter emits exactly two setters — a replace setter named
`Set<PascalCase(name)>` taking the whole list type and overwriting the
list field, and an append setter named `PascalCase(singular(name))`
(where `singular` strips a trailing `es` if present, else a trailing `s`)
taking a pointer to one element of the list's element type and appending
it to the field — both returning the call for chaining. -/
theorem c6_list_setters (a : Argument)
    (hr : a.required = false) (ht : strEndsWith a.type_ "List" = true) :
    settersFor a =
      [SetterShape.replace ("Set" ++ camelit a.name) a.name a.type_ true,
       SetterShape.append (camelit (specSingular a.name)) (specSingular a.name)
         ("*" ++ trimSuffix a.type_ "List") true]
    ∧ (∀ st xs, setListField st a.name xs a.name = ArgValue.list xs)
    ∧ (∀ st x xs, st a.name = ArgValue.list xs →
         appendListField st a.name x = updateState st a.name (ArgValue.list (xs ++ [x]))) := by
  refine ⟨?_, ?_, ?_⟩
  · rw [settersFor, if_neg (by simp [hr]), if_pos ht, singularName_eq_specSingular]
  · intro st xs
    simp [setListField, updateState]
  · intro st x xs hxs
    rw [appendListField, hxs]

def attachArg : Argument :=
  { name := "attachments", type_ := "AttachmentList", required := false,
    default_ := "", queryName := "", comment := "" }

/-- Witness for C6 at the concrete list argument `attachments`. -/
theorem c6_witness :
    settersFor attachArg =
      [SetterShape.replace "SetAttachments" "attachments" "AttachmentList" true,
       SetterShape.append "Attachment" "attachment" "*Attachment" true] := by
  have h := (c6_list_setters attachArg rfl (by decide)).1
  rw [h]
  decide

/-- The decoded `SlackResponse` envelope of the generated `Do` routine:
the success flag `OK` and the error description `Error.String()`. -/
structure SlackResponse where
  ok : Bool
  errorMsg : String
deriving DecidableEq

/-- The generated `Do` routine (genmethods.go lines 316-370): build the
parameter mapping; on failure return the error unchanged; post the form to
the endpoint's name via the transport collaborator `post` (which yields
the decoded envelope together with the optional decoded payload),
wrapping a transport failure with `failed to post to <endpoint>`; fail
with the envelope's error description when its success flag is false;
otherwise return the payload for endpoints with a declared return type
and nothing for the rest. -/
def doCall (env : EncodeEnv) (e : Endpoint) (tok : String) (st : CallState)
    (post : String → (String → Option String) → Except String (SlackResponse × Option String)) :
    Except String (Option String) :=
  match values env e tok st with
  | .error err => .error err
  | .ok v =>
    match post e.name v with
    | .error err => .error ("failed to post to " ++ e.name ++ ": " ++ err)
    | .ok (res, payload) =>
      if !res.ok then .error res.errorMsg
      else .ok (if e.returnType.length > 0 then payload else none)

/-- Claim C9: whenever the decoded envelope's success flag is false, `Do`
fails with exactly the envelope's error description, for every endpoint
regardless of its declared return type, and no payload is returned. -/
theorem c9_do_error (env : EncodeEnv) (e : Endpoint) (tok : String) (st : CallState)
    (post : String → (String → Option String) → Except String (SlackResponse × Option String))
    (v : String → Option String) (res : SlackResponse) (payload : Option String)
    (hv : values env e tok st = .ok v)
    (hpost : post e.name v = .ok (res, payload))
    (hok : res.ok = false) :
    doCall env e tok st post = .error res.errorMsg := by
  unfold doCall
  rw [hv]
  dsimp only
  rw [hpost]
  dsimp only
  rw [hok]
  rfl

/-- Endpoint with a declared return type, for the C9 witness. -/
def epRet : Endpoint :=
  { file := "", methodName := "", group := "G", name := "auth.test", json := "user",
    args := [], returnType := "objects.UserDetails", skipToken := false }

/-- Transport collaborator that always reports an application failure. -/
def postFail : String → (String → Option String) → Except String (SlackResponse × Option String) :=
  fun _ _ => .ok ({ ok := false, errorMsg := "not_authed" }, some "payload")

/-- Witness for C9: a `{"ok": false, "error": "not_authed"}` envelope
makes `Do` fail with message `not_authed` even though the endpoint
declares a return type. -/
theorem c9_witness : doCall env0 epRet "tok" stEmpty postFail = .error "not_authed" :=
  c9_do_error env0 epRet "tok" stEmpty postFail (initVals epRet "tok")
    { ok := false, errorMsg := "not_authed" } (some "payload") rfl rfl rfl

/-- The processed form of one endpoint, defaulting the (panicking) `none`
case to the endpoint itself; a successful `processAll` run is exactly the
map of this function. -/
def procD (e : Endpoint) : Endpoint := (processEndpoint e).getD e

theorem processAll_eq_map :
    ∀ {c p : List Endpoint}, processAll c = some p → p = c.map procD := by
  intro c
  induction c with
  | nil =>
    intro p h
    have := Option.some.inj h
    rw [← this]
    rfl
  | cons e rest ih =>
    intro p h
    cases hpe : processEndpoint e with
    | none => rw [processAll, hpe] at h; exact absurd h (by simp)
    | some e' =>
      cases hall : processAll rest with
      | none => rw [processAll, hpe, hall] at h; exact absurd h (by simp)
      | some q =>
        rw [processAll, hpe, hall] at h
        have hq := Option.some.inj h
        rw [← hq, List.map_cons, ← ih hall]
        congr 1
        rw [procD, hpe]
        rfl

theorem procD_name (e : Endpoint) : (procD e).name = e.name := by
  rw [procD]
  cases hs : splitLastDot e.name.data with
  | none => simp [processEndpoint, hs]
  | some pr =>
    obtain ⟨ns, ms⟩ := pr
    simp [processEndpoint, hs]

theorem processAll_names {c p : List Endpoint} (h : processAll c = some p) :
    p.map (fun e => e.name) = c.map (fun e => e.name) := by
  rw [processAll_eq_map h, List.map_map]
  exact List.map_congr_left (fun e _ => procD_name e)

/-- Two mutually permuted lists, both sorted by endpoint name, with no
duplicate name, are equal. -/
theorem eq_of_perm_sortedKey :
    ∀ {l₁ l₂ : List Endpoint}, l₁.Perm l₂ → l₁.Sorted byName → l₂.Sorted byName →
      (l₁.map (fun e => e.name)).Nodup → l₁ = l₂ := by
  intro l₁
  induction l₁ with
  | nil =>
    intro l₂ hp _ _ _
    exact (hp.symm.eq_nil).symm
  | cons a t ih =>
    intro l₂ hp hs₁ hs₂ hn
    cases l₂ with
    | nil => exact absurd hp.eq_nil (by simp)
    | cons b t₂ =>
      have hab : a = b := by
        have haIn : a ∈ b :: t₂ := hp.subset (List.mem_cons_self a t)
        rcases List.mem_cons.mp haIn with h | h
        · exact h
        · have hbIn : b ∈ a :: t := hp.symm.subset (List.mem_cons_self b t₂)
          rcases List.mem_cons.mp hbIn with h' | h'
          · exact h'.symm
          · have hle₁ : byName a b := (List.sorted_cons.mp hs₁).1 b h'
            have hle₂ : byName b a := (List.sorted_cons.mp hs₂).1 a h
            have heq : a.name = b.name := strLe_antisymm_eq hle₁ hle₂
            have hn' : a.name ∉ t.map (fun e => e.name) := (List.nodup_cons.mp hn).1
            have hbm : b.name ∈ t.map (fun e => e.name) :=
              List.mem_map_of_mem _ h'
            rw [← heq] at hbm
            exact absurd hbm hn'
      subst hab
      rw [ih hp.cons_inv (List.sorted_cons.mp hs₁).2 (List.sorted_cons.mp hs₂).2
        (List.nodup_cons.mp hn).2]

theorem groupNames_perm_eq {p₁ p₂ : List Endpoint} (h : p₁.Perm p₂) :
    groupNames p₁ = groupNames p₂ := by
  unfold groupNames
  refine List.eq_of_perm_of_sorted ?_ (List.sorted_insertionSort strLe _)
    (List.sorted_insertionSort strLe _)
  exact ((List.perm_insertionSort strLe _).trans ((h.map _).dedup)).trans
    (List.perm_insertionSort strLe _).symm

theorem sortedBucket_eq {p₁ p₂ : List Endpoint} (h : p₁.Perm p₂)
    (hn : (p₁.map (fun e => e.name)).Nodup) (f : String) :
    sortedBucket p₁ f = sortedBucket p₂ f := by
  unfold sortedBucket
  refine eq_of_perm_sortedKey ?_ (List.sorted_insertionSort byName _)
    (List.sorted_insertionSort byName _) ?_
  · exact ((List.perm_insertionSort byName _).trans (h.filter _)).trans
      (List.perm_insertionSort byName _).symm
  · have hb : ((bucket p₁ f).map (fun e => e.name)).Nodup :=
      ((List.filter_sublist p₁).map _).nodup hn
    exact (((List.perm_insertionSort byName (bucket p₁ f)).map _).symm).nodup hb

/-- Claim C7: generation is deterministic and independent of catalog
order.  For two catalogs that are permutations of each other (with
pairwise-distinct endpoint names) and for which the grouping pass
succeeds, the sorted group list and the rendered content of every output
file coincide; moreover groups are emitted sorted, endpoints within a
file are sorted by full dotted name, and arguments within an endpoint are
sorted by name. -/
theorem c7_determinism (c₁ c₂ p₁ p₂ : List Endpoint)
    (hperm : c₁.Perm c₂)
    (h₁ : processAll c₁ = some p₁) (h₂ : processAll c₂ = some p₂)
    (hnames : (c₁.map (fun e => e.name)).Nodup) :
    groupNames p₁ = groupNames p₂
    ∧ (∀ f, renderFile p₁ f = renderFile p₂ f)
    ∧ (groupNames p₁).Sorted strLe
    ∧ (∀ f, (renderFile p₁ f).Sorted byName)
    ∧ (∀ f, ∀ e ∈ renderFile p₁ f, e.args.Sorted byArgName) := by
  have hp : p₁.Perm p₂ := by
    rw [processAll_eq_map h₁, processAll_eq_map h₂]
    exact hperm.map procD
  have hn₁ : (p₁.map (fun e => e.name)).Nodup := by
    rw [processAll_names h₁]
    exact hnames
  refine ⟨groupNames_perm_eq hp, ?_, List.sorted_insertionSort strLe _, ?_, ?_⟩
  · intro f
    unfold renderFile
    rw [sortedBucket_eq hp hn₁ f]
  · intro f
    unfold renderFile sortedBucket
    refine List.Pairwise.map renderEndpoint ?_ (List.sorted_insertionSort byName _)
    intro a b hab
    exact hab
  · intro f e he
    rcases List.mem_map.mp he with ⟨e', _, rfl⟩
    exact List.sorted_insertionSort byArgName _

/-- Second sample catalog endpoint: `users.list`, no explicit group. -/
def epUsers : Endpoint :=
  { file := "", methodName := "", group := "", name := "users.list",
    json := "", args := [], returnType := "", skipToken := false }

/-- `epUsers` after the grouping pass. -/
def epUsersP : Endpoint :=
  { file := "users.go", methodName := "List", group := "Users",
    name := "users.list", json := "", args := [], returnType := "",
    skipToken := false }

def cat1 : List Endpoint := [epChat, epUsers]

def cat2 : List Endpoint := [epUsers, epChat]

def pcat1 : List Endpoint := [epChatP, epUsersP]

def pcat2 : List Endpoint := [epUsersP, epChatP]

/-- Witness for C7 on a two-endpoint catalog and its transposition. -/
theorem c7_witness :
    groupNames pcat1 = groupNames pcat2
    ∧ renderFile pcat1 "chat.go" = renderFile pcat2 "chat.go" := by
  have h := c7_determinism cat1 cat2 pcat1 pcat2 (List.Perm.swap epUsers epChat [])
    (by decide) (by decide) (by decide)
  exact ⟨h.1, h.2.1 "chat.go"⟩

end GenMethods
